import Mathlib

/-!
Verification of the `mixing_fractions` repository (collapsed Gibbs sampler for
formation-channel mixing fractions) against its natural-language specification.

The Python sources are shallowly embedded: machine floats become real numbers,
numpy arrays become lists, and the stochastic draws (numpy shuffles,
`np.random.choice`, `scipy.stats.dirichlet.rvs`) become explicit oracle
parameters constrained only by the contracts of those library calls.
Every definition is translated from the corresponding function in
`src/mixing_fractions`, with the source location noted in its doc comment.
-/

namespace MixingFractions

/-- Embedding of `utils._logsumexp_jit` (utils.py lines 6-10): `a_max = np.max(a)`;
`tmp = b * np.exp(a - a_max)`; return `np.log(np.sum(tmp)) + a_max`.
`listMax` embeds `np.max` on a non-empty array (the empty case never occurs in
the source; `np.max` raises there). -/
noncomputable def listMax : List ℝ → ℝ
  | [] => 0
  | x :: xs => xs.foldl max x

/-- Embedding of `utils._logsumexp_jit` itself.  The elementwise numpy product
`b * np.exp(a - a_max)` is `zipWith`, pairing `b` and `a` positionally. -/
noncomputable def logsumexp_jit (a b : List ℝ) : ℝ :=
  let a_max := listMax a
  let tmp := List.zipWith (fun bi ai => bi * Real.exp (ai - a_max)) b a
  Real.log tmp.sum + a_max

/-- Ordinary log-sum-exp, written from the words of the spec (section 4.1:
"Must match ordinary logsumexp when every b_i = 1").  This is the spec-side
definition used for the refinement comparison, not a translation of the code. -/
noncomputable def logsumexp (a : List ℝ) : ℝ := Real.log ((a.map Real.exp).sum)

/-- A `target` argument of `montecarlo.MC_integral`: either a single
density-capable model or a collection of them.  A model is represented by its
density function (the `pdf` method), mapped over samples pointwise. -/
inductive Target where
  | single : (ℝ → ℝ) → Target
  | collection : List (ℝ → ℝ) → Target

/-- Arithmetic mean of a list, the embedding of `np.ndarray.mean`.
(For the empty list this is `0/0 = 0` in Lean; the sources only take means of
non-empty arrays.) -/
noncomputable def listMean (xs : List ℝ) : ℝ := xs.sum / xs.length

/-- The `probabilities` matrix built inside `montecarlo.MC_integral`
(montecarlo.py lines 33-36): one row of densities per model in collection mode,
`np.atleast_2d` of the single density row otherwise.  The in-place
`np.random.shuffle(target)` performed in collection mode is omitted because the
subsequent mean over models is permutation-invariant
(`MC_integral_collection_perm` below). -/
noncomputable def MC_probabilities (target : Target) (samples : List ℝ) : List (List ℝ) :=
  match target with
  | .collection ps => ps.map (fun pi => samples.map pi)
  | .single p => [samples.map p]

/-- Embedding of `montecarlo.MC_integral` (montecarlo.py lines 3-39):
`means = probabilities.mean(axis = 1)`; `I = means.mean()`; `return np.log(I)`.
Note: line 19 of the source, the duck-typing check on `target`, is syntactically
malformed (an unmatched parenthesis), so the Python module does not parse; this
embedding gives the denotation of the remainder of the body, whose type
discipline the `Target` inductive enforces. -/
noncomputable def MC_integral (target : Target) (samples : List ℝ) : ℝ :=
  Real.log (listMean ((MC_probabilities target samples).map listMean))

/-- Error taxonomy named by the spec (section 7).  None of these classes exist
anywhere in `src/`; the type is declared only so that the absence of error
paths in the code can be stated. -/
inductive GibbsError where
  | configuration : GibbsError
  | invalidTarget : GibbsError
  | numerical : GibbsError
deriving DecidableEq

/-- `MC_integral` with an explicit error channel.  The only raise sites in the
source (montecarlo.py lines 19-27) are duck-typing checks on `target`, which
cannot fire for a well-typed `Target`; the source contains no finiteness or
zero-density check, so every well-typed call returns normally. -/
noncomputable def MC_integral_checked (target : Target) (samples : List ℝ) : Except GibbsError ℝ :=
  .ok (MC_integral target samples)

/-- The mean over models is invariant under permutation of the model
collection, which is why the in-place shuffle in collection mode does not
affect the value of `MC_integral`. -/
theorem MC_integral_collection_perm (ps qs : List (ℝ → ℝ)) (s : List ℝ)
    (h : ps.Perm qs) :
    MC_integral (Target.collection ps) s = MC_integral (Target.collection qs) s := by
  have hmap : ((ps.map (fun pi => s.map pi)).map listMean).Perm
      ((qs.map (fun pi => s.map pi)).map listMean) := (h.map _).map _
  simp only [MC_integral, MC_probabilities, listMean]
  rw [hmap.sum_eq, hmap.length_eq]

/-- Mutable state of the `Gibbs` sampler (sampler.py): `self.assignments`
(a Python list initialised to `None`, hence `Option`) and `self.counts`
(a float numpy array that only ever holds integers, embedded as `ℤ`). -/
structure GibbsState where
  assignments : List (Option ℕ)
  counts : List ℤ

/-- `self.counts[idx] += 1.` (sampler.py line 83 and line 98). -/
def incrCount (counts : List ℤ) (idx : ℕ) : List ℤ :=
  counts.set idx (counts.getD idx 0 + 1)

/-- `self.counts[old_idx] -= 1.` (sampler.py line 94). -/
def decrCount (counts : List ℤ) (idx : ℕ) : List ℤ :=
  counts.set idx (counts.getD idx 0 - 1)

/-- One iteration of the loop of `Gibbs._initialise_assignments`
(sampler.py lines 80-83): record the drawn index for event `i` and bump its
count.  The drawn index itself is supplied as an argument because the draw is
random (and, as shown at `C1_exp_logP_row_sum_ne_one`, the drawing code is
defective); `np.random.choice(self.n_models, ...)` contractually returns an
index below `n_models`. -/
def assign_step (st : GibbsState) (i idx : ℕ) : GibbsState :=
  ⟨st.assignments.set i (some idx), incrCount st.counts idx⟩

/-- Embedding of `Gibbs._initialise_assignments` (sampler.py lines 72-83).
`steps` lists the visited event index together with the index drawn for it, in
visitation order; the shuffled `order` of the source makes the visited events
an arbitrary permutation of `range n_events`. -/
def initialise_assignments (n_events n_models : ℕ) (steps : List (ℕ × ℕ)) : GibbsState :=
  steps.foldl (fun st p => assign_step st p.1 p.2)
    ⟨List.replicate n_events none, List.replicate n_models 0⟩

/-- Embedding of `Gibbs._update_component` (sampler.py lines 85-98): read the
old assignment of event `i`, decrement its count, then store the newly drawn
index and increment its count.  After initialisation the assignment of every
event is `some`, so the `none` branch (which in Python would fault on
`self.counts[None]`) is unreachable. -/
def update_component (st : GibbsState) (i new_idx : ℕ) : GibbsState :=
  match st.assignments.getD i none with
  | none => st
  | some old_idx =>
      ⟨st.assignments.set i (some new_idx),
        incrCount (decrCount st.counts old_idx) new_idx⟩

/-- The `logP_DD` array of `Gibbs._draw_assignment` (sampler.py line 66):
`np.log((self.counts + self.alpha)/(i + self.alpha0))`.  Note the denominator
uses the event index `i` exactly as the source does. -/
noncomputable def logP_DD (counts : List ℝ) (alpha alpha0 : ℝ) (i : ℕ) : List ℝ :=
  counts.map (fun c => Real.log ((c + alpha) / ((i : ℝ) + alpha0)))

/-- The `logP` value of `Gibbs._draw_assignment` (sampler.py line 67):
`logP_DD + self.event_probabilities - logsumexp_jit(self.event_probabilities[i], logP_DD)`.
Since `self.event_probabilities` is the whole `(n_events, n_models)` matrix,
numpy broadcasting adds `logP_DD` to every row and the result is a matrix. -/
noncomputable def draw_assignment_logP (counts : List ℝ) (alpha alpha0 : ℝ)
    (event_probabilities : List (List ℝ)) (i : ℕ) : List (List ℝ) :=
  let lpdd := logP_DD counts alpha alpha0 i
  let z := logsumexp_jit (event_probabilities.getD i []) lpdd
  event_probabilities.map (fun row => List.zipWith (fun d e => d + e - z) lpdd row)

/-- Embedding of `Gibbs._evaluate_event_probabilities` (sampler.py lines 47-53):
`self.event_probabilities[i] = np.array([MC_integral(model, event) for model in self.models])`,
one single-model `MC_integral` call per (event, model) pair. -/
noncomputable def evaluate_event_probabilities (models : List (ℝ → ℝ))
    (events : List (List ℝ)) : List (List ℝ) :=
  events.map (fun event => models.map (fun model => MC_integral (Target.single model) event))

/-- The Dirichlet parameter vector written in `Gibbs._draw_mixing_fractions`
(sampler.py line 107): `(counts + self.alpha)/(self.n_events + self.alpha0)`.
The source reads the bare name `counts`, which is unbound in that scope (the
attribute is `self.counts`), so the Python function raises `NameError`; this
definition takes the array as an explicit parameter in order to denote the
expression under the evident intended binding. -/
noncomputable def draw_mixing_fractions_param (counts : List ℝ) (alpha alpha0 : ℝ)
    (n_events : ℕ) : List ℝ :=
  counts.map (fun c => (c + alpha) / ((n_events : ℝ) + alpha0))

/-- Python `int()` applied to a rational: truncation toward zero. -/
def pyInt (q : ℚ) : ℤ := if q < 0 then ⌈q⌉ else ⌊q⌋

/-- The scalar configuration stored by `Gibbs.__init__`. -/
structure GibbsConfig where
  n_events : ℕ
  n_models : ℕ
  alpha0 : ℝ
  alpha : ℝ
  thinning : ℤ

/-- Embedding of the body of `Gibbs.__init__` (sampler.py lines 24-45) as far
as the scalar configuration is concerned: `n_events = len(posterior_samples)`,
`n_models = len(models)`, `alpha = alpha0/n_models`, `thinning = int(thinning)`.
The lengths of `event_names` and `model_names` are passed in so the statement
can observe that the source compares them to nothing: the body contains no
validation and no raise, so the result carries an `Except` error channel that
is never used. -/
noncomputable def Gibbs_init (n_posterior_samples n_models n_event_names n_model_names : ℕ)
    (alpha0 : ℝ) (thinning : ℚ) : Except GibbsError GibbsConfig :=
  .ok ⟨n_posterior_samples, n_models, alpha0, alpha0 / (n_models : ℝ), pyInt thinning⟩

/-- Embedding of `Gibbs._draw_sample` (sampler.py lines 110-117): apply a
steady-state update for each of the chosen event indices, then draw one
mixing-fraction vector.  `updates` pairs each chosen event index with the index
drawn for it (the random draw abstracted as in `assign_step`), and `mix` is the
Dirichlet variate the call would return (the Dirichlet draw being external
randomness; see also `C6_mixing_fraction_params_positive` for the defect in that
call). -/
def draw_sample (st : GibbsState) (updates : List (ℕ × ℕ)) (mix : List ℝ) :
    List ℝ × GibbsState :=
  (mix, updates.foldl (fun s p => update_component s p.1 p.2) st)

/-- One iteration of the comprehension in `Gibbs.rvs` (sampler.py line 129),
with the per-draw randomness supplied by `oracle`. -/
def rvs_step (oracle : ℕ → List (ℕ × ℕ) × List ℝ)
    (acc : List (List ℝ) × GibbsState) (j : ℕ) : List (List ℝ) × GibbsState :=
  (acc.1 ++ [(draw_sample acc.2 (oracle j).1 (oracle j).2).1],
    (draw_sample acc.2 (oracle j).1 (oracle j).2).2)

/-- Embedding of `Gibbs.rvs` (sampler.py lines 119-129):
`np.array([self._draw_sample() for _ in range(int(n_draws))])`, returning the
collected draws together with the final sampler state. -/
def rvs (st : GibbsState) (oracle : ℕ → List (ℕ × ℕ) × List ℝ) (n_draws : ℚ) :
    List (List ℝ) × GibbsState :=
  (List.range (pyInt n_draws).toNat).foldl (rvs_step oracle) ([], st)

/-- The tally invariant of the sampler state: counts has one entry per model,
entry `k` counts the events currently assigned to model `k`, every assignment
is either unset or a valid model index, and the total count equals the number
of set assignments. -/
def gibbs_inv (st : GibbsState) (n_events n_models : ℕ) : Prop :=
  st.assignments.length = n_events ∧
  st.counts.length = n_models ∧
  (∀ k, k < n_models →
    st.counts.getD k 0 = (st.assignments.countP (fun a => decide (a = some k)) : ℤ)) ∧
  (∀ a ∈ st.assignments, ∀ k, a = some k → k < n_models) ∧
  st.counts.sum = (st.assignments.countP (fun a => a.isSome) : ℤ)

/-- Full well-formedness after initialisation: the tally invariant, total count
`n_events`, and every event assigned a valid model index. -/
def gibbs_wf (st : GibbsState) (n_events n_models : ℕ) : Prop :=
  gibbs_inv st n_events n_models ∧
  st.counts.sum = (n_events : ℤ) ∧
  ∀ i, i < n_events → ∃ k, k < n_models ∧ st.assignments.getD i none = some k

/-! Helper lemmas about `List.getD`, `List.set` and `List.countP`, used to
reason about the numpy-array updates of the sampler. -/

theorem getD_pos {α} (l : List α) (i : ℕ) (d : α) (h : i < l.length) :
    l.getD i d = l.get ⟨i, h⟩ := by
  simp [List.getD_eq_getElem?_getD, List.getElem?_eq_getElem h]

theorem getD_set_self {α} (l : List α) (i : ℕ) (v d : α) (h : i < l.length) :
    (l.set i v).getD i d = v := by
  have h2 : i < (l.set i v).length := by simpa using h
  rw [getD_pos _ _ _ h2]
  simpa using List.getElem_set_self h2

theorem getD_set_ne {α} (l : List α) (i j : ℕ) (v d : α) (hij : i ≠ j) :
    (l.set i v).getD j d = l.getD j d := by
  simp [List.getD_eq_getElem?_getD, List.getElem?_set_ne hij]

theorem sum_set_int (l : List ℤ) (i : ℕ) (v : ℤ) (h : i < l.length) :
    (l.set i v).sum = l.sum - l.getD i 0 + v := by
  induction l generalizing i with
  | nil => simp at h
  | cons x xs ih =>
      cases i with
      | zero => simp [List.sum_cons]; ring
      | succ n =>
          have hn : n < xs.length := by simpa using h
          simp [List.sum_cons, ih n hn]
          ring

theorem countP_set_int {α} (l : List α) (p : α → Bool) (i : ℕ) (v d : α)
    (h : i < l.length) :
    (((l.set i v).countP p : ℕ) : ℤ)
      = (l.countP p : ℤ) - (if p (l.getD i d) then 1 else 0)
        + (if p v then 1 else 0) := by
  have hd : l.getD i d = l[i] := by
    simp [List.getD_eq_getElem?_getD, List.getElem?_eq_getElem h]
  rw [hd, List.countP_set p l i v h]
  have hle := List.boole_getElem_le_countP p l i h
  cases hpl : p l[i] <;> cases hpv : p v <;>
      simp only [hpl, hpv, if_true, if_false, Bool.false_eq_true, ite_true,
        ite_false] at hle ⊢ <;>
    omega

theorem getD_replicate {α} (n j : ℕ) (d : α) : (List.replicate n d).getD j d = d := by
  induction n generalizing j with
  | zero => simp
  | succ n ih =>
      cases j with
      | zero => simp [List.replicate_succ]
      | succ j => simpa [List.replicate_succ] using ih j

theorem getD_mem {α} (l : List α) (i : ℕ) (d : α) (h : i < l.length) :
    l.getD i d ∈ l := by
  rw [getD_pos l i d h]
  simpa using List.getElem_mem h

/-- One initialisation step preserves the tally invariant, increments the total
count, sets the visited slot, and leaves every other slot untouched. -/
theorem assign_step_inv (st : GibbsState) (n_events n_models i idx : ℕ)
    (hinv : gibbs_inv st n_events n_models)
    (hi : i < n_events) (hidx : idx < n_models)
    (hnone : st.assignments.getD i none = none) :
    gibbs_inv (assign_step st i idx) n_events n_models
    ∧ (assign_step st i idx).counts.sum = st.counts.sum + 1
    ∧ (assign_step st i idx).assignments.getD i none = some idx
    ∧ ∀ j, j ≠ i →
        (assign_step st i idx).assignments.getD j none = st.assignments.getD j none := by
  obtain ⟨hlen_a, hlen_c, htally, hvalid, hsum⟩ := hinv
  have hia : i < st.assignments.length := hlen_a ▸ hi
  have hic : idx < st.counts.length := hlen_c ▸ hidx
  have hA : (assign_step st i idx).assignments = st.assignments.set i (some idx) := rfl
  have hC : (assign_step st i idx).counts
      = st.counts.set idx (st.counts.getD idx 0 + 1) := rfl
  refine ⟨⟨?_, ?_, ?_, ?_, ?_⟩, ?_, ?_, ?_⟩
  · rw [hA, List.length_set]; exact hlen_a
  · rw [hC, List.length_set]; exact hlen_c
  · intro k hk
    have hcp := countP_set_int st.assignments (fun a => decide (a = some k)) i
      (some idx) none hia
    rw [hnone] at hcp
    simp only [decide_eq_true_eq] at hcp
    rw [hA, hC]
    by_cases hk2 : k = idx
    · subst hk2
      rw [getD_set_self _ _ _ _ hic, htally k hk, hcp]
      simp
    · rw [getD_set_ne _ _ _ _ _ (fun hcon => hk2 hcon.symm), htally k hk, hcp]
      have hne1 : ¬ ((none : Option ℕ) = some k) := by simp
      have hne2 : ¬ ((some idx : Option ℕ) = some k) := by
        simp only [Option.some.injEq]
        exact fun hcon => hk2 hcon.symm
      rw [if_neg hne1, if_neg hne2]
      ring
  · intro a ha k hak
    rcases List.mem_or_eq_of_mem_set (hA ▸ ha) with hmem | heq
    · exact hvalid a hmem k hak
    · rw [heq] at hak
      injection hak with h3
      subst h3
      exact hidx
  · rw [hA, hC, sum_set_int _ _ _ hic]
    have hcp := countP_set_int st.assignments (fun a => a.isSome) i (some idx) none hia
    rw [hnone] at hcp
    simp only [Option.isSome_none, Option.isSome_some, Bool.false_eq_true,
      ite_true, ite_false, if_true, if_false] at hcp
    rw [hcp, hsum]
    ring
  · rw [hC, sum_set_int _ _ _ hic]
    ring
  · rw [hA]
    exact getD_set_self _ _ _ _ hia
  · intro j hj
    rw [hA]
    exact getD_set_ne _ _ _ _ _ (fun hcon => hj hcon.symm)

/-- Folding any sequence of initialisation steps with distinct, currently
unassigned event indices preserves the invariant, adds one count per step,
never unsets a slot, and sets every visited slot. -/
theorem init_fold_inv (n_events n_models : ℕ) :
    ∀ (steps : List (ℕ × ℕ)) (st : GibbsState),
      gibbs_inv st n_events n_models →
      (∀ p ∈ steps, p.1 < n_events ∧ p.2 < n_models
        ∧ st.assignments.getD p.1 none = none) →
      (steps.map Prod.fst).Nodup →
      gibbs_inv (steps.foldl (fun s p => assign_step s p.1 p.2) st) n_events n_models
      ∧ (steps.foldl (fun s p => assign_step s p.1 p.2) st).counts.sum
          = st.counts.sum + steps.length
      ∧ (∀ j, (st.assignments.getD j none).isSome = true →
          (((steps.foldl (fun s p => assign_step s p.1 p.2) st).assignments.getD j
            none)).isSome = true)
      ∧ ∀ p ∈ steps,
          (((steps.foldl (fun s p => assign_step s p.1 p.2) st).assignments.getD p.1
            none)).isSome = true := by
  intro steps
  induction steps with
  | nil =>
      intro st hinv _ _
      exact ⟨hinv, by simp, fun j h => h, by simp⟩
  | cons q rest ih =>
      intro st hinv hsteps hnodup
      obtain ⟨hq1, hq2, hq3⟩ := hsteps q (List.mem_cons_self q rest)
      obtain ⟨hinv2, hsum2, hset2, hother2⟩ :=
        assign_step_inv st n_events n_models q.1 q.2 hinv hq1 hq2 hq3
      have hmap : ((q :: rest).map Prod.fst) = q.1 :: rest.map Prod.fst := rfl
      rw [hmap, List.nodup_cons] at hnodup
      obtain ⟨hq_not, hnd⟩ := hnodup
      have hsteps2 : ∀ p ∈ rest, p.1 < n_events ∧ p.2 < n_models
          ∧ (assign_step st q.1 q.2).assignments.getD p.1 none = none := by
        intro p hp
        obtain ⟨h1, h2, h3⟩ := hsteps p (List.mem_cons_of_mem q hp)
        refine ⟨h1, h2, ?_⟩
        rw [hother2 p.1 ?_]
        · exact h3
        · intro hcon
          exact hq_not (hcon ▸ List.mem_map_of_mem Prod.fst hp)
      obtain ⟨hinv3, hsum3, hmono3, hall3⟩ := ih (assign_step st q.1 q.2) hinv2 hsteps2 hnd
      simp only [List.foldl_cons]
      refine ⟨hinv3, ?_, ?_, ?_⟩
      · rw [hsum3, hsum2, List.length_cons]
        push_cast
        ring
      · intro j hj
        apply hmono3
        by_cases hji : j = q.1
        · subst hji
          rw [hset2]
          rfl
        · rw [hother2 j hji]
          exact hj
      · intro p hp
        rcases List.mem_cons.mp hp with rfl | hp2
        · apply hmono3
          rw [hset2]
          rfl
        · exact hall3 p hp2

/-- Claim C2: after initialisation completes (events visited in any order that
covers each exactly once, every drawn index a valid model index) and after
every steady-state update, `CountVector[k]` equals the number of events
assigned to model `k`; consequently the counts sum to `n_events` and every
assignment entry is a valid model index below `n_models`. -/
theorem C2_tally_invariant (n_events n_models : ℕ) (steps : List (ℕ × ℕ))
    (hperm : (steps.map Prod.fst).Perm (List.range n_events))
    (hmods : ∀ p ∈ steps, p.2 < n_models) :
    gibbs_wf (initialise_assignments n_events n_models steps) n_events n_models
    ∧ ∀ st i new_idx, gibbs_wf st n_events n_models → i < n_events →
        new_idx < n_models →
        gibbs_wf (update_component st i new_idx) n_events n_models := by
  constructor
  · simp only [initialise_assignments]
    have hinv0 : gibbs_inv ⟨List.replicate n_events none, List.replicate n_models 0⟩
        n_events n_models := by
      refine ⟨List.length_replicate _ _, List.length_replicate _ _, ?_, ?_, ?_⟩
      · intro k _
        rw [getD_replicate]
        have hz : (List.replicate n_events (none : Option ℕ)).countP
            (fun a => decide (a = some k)) = 0 := by
          apply List.countP_eq_zero.mpr
          intro a ha
          rw [List.eq_of_mem_replicate ha]
          simp
        rw [hz]
        simp
      · intro a ha k hak
        rw [List.eq_of_mem_replicate ha] at hak
        simp at hak
      · have hz : (List.replicate n_events (none : Option ℕ)).countP
            (fun a => a.isSome) = 0 := by
          apply List.countP_eq_zero.mpr
          intro a ha
          rw [List.eq_of_mem_replicate ha]
          simp
        rw [hz]
        simp
    have hsteps0 : ∀ p ∈ steps, p.1 < n_events ∧ p.2 < n_models
        ∧ (List.replicate n_events (none : Option ℕ)).getD p.1 none = none := by
      intro p hp
      refine ⟨?_, hmods p hp, getD_replicate _ _ _⟩
      exact List.mem_range.mp (hperm.mem_iff.mp (List.mem_map_of_mem Prod.fst hp))
    have hnodup : (steps.map Prod.fst).Nodup :=
      (hperm.nodup_iff).mpr (List.nodup_range n_events)
    obtain ⟨hinvF, hsumF, hmonoF, hallF⟩ :=
      init_fold_inv n_events n_models steps
        ⟨List.replicate n_events none, List.replicate n_models 0⟩ hinv0 hsteps0 hnodup
    have hlen_steps : steps.length = n_events := by
      have h1 := hperm.length_eq
      rwa [List.length_map, List.length_range] at h1
    refine ⟨hinvF, ?_, ?_⟩
    · rw [hsumF]
      simp [List.sum_replicate, hlen_steps]
    · intro i hi
      have hmem : i ∈ steps.map Prod.fst :=
        hperm.mem_iff.mpr (List.mem_range.mpr hi)
      obtain ⟨p, hp, hpi⟩ := List.mem_map.mp hmem
      have hs := hallF p hp
      rw [hpi] at hs
      obtain ⟨k, hk⟩ := Option.isSome_iff_exists.mp hs
      refine ⟨k, ?_, hk⟩
      have hilen : i < (List.foldl (fun s p => assign_step s p.1 p.2)
          (GibbsState.mk (List.replicate n_events none) (List.replicate n_models 0))
          steps).assignments.length := by
        rw [hinvF.1]
        exact hi
      have hmem2 : some k ∈ (List.foldl (fun s p => assign_step s p.1 p.2)
          (GibbsState.mk (List.replicate n_events none) (List.replicate n_models 0))
          steps).assignments := by
        have h6 := getD_mem _ i none hilen
        rwa [hk] at h6
      exact hinvF.2.2.2.1 (some k) hmem2 k rfl
  · intro st i new_idx hwf hi hnew
    obtain ⟨⟨hlen_a, hlen_c, htally, hvalid, hsum⟩, hsumN, hassigned⟩ := hwf
    obtain ⟨old, hold_lt, hold⟩ := hassigned i hi
    have hia : i < st.assignments.length := hlen_a ▸ hi
    have hoc : old < st.counts.length := hlen_c ▸ hold_lt
    have hnc : new_idx < st.counts.length := hlen_c ▸ hnew
    have hdlen : (decrCount st.counts old).length = st.counts.length := by
      rw [decrCount, List.length_set]
    have hgoal : update_component st i new_idx
        = GibbsState.mk (st.assignments.set i (some new_idx))
            (incrCount (decrCount st.counts old) new_idx) := by
      simp only [update_component, hold]
    have hgetc2 : ∀ k, k < n_models →
        (incrCount (decrCount st.counts old) new_idx).getD k 0
          = st.counts.getD k 0 - (if k = old then 1 else 0)
            + (if k = new_idx then 1 else 0) := by
      intro k hk
      by_cases hkn : k = new_idx
      · subst hkn
        rw [incrCount, getD_set_self _ _ _ _ (by rw [hdlen]; exact hlen_c ▸ hk)]
        by_cases hko : k = old
        · subst hko
          rw [decrCount, getD_set_self _ _ _ _ hoc]
          simp
        · rw [decrCount, getD_set_ne _ _ _ _ _ (fun hcon => hko hcon.symm)]
          simp [hko]
      · rw [incrCount, getD_set_ne _ _ _ _ _ (fun hcon => hkn hcon.symm)]
        by_cases hko : k = old
        · subst hko
          rw [decrCount, getD_set_self _ _ _ _ hoc]
          simp [hkn]
        · rw [decrCount, getD_set_ne _ _ _ _ _ (fun hcon => hko hcon.symm)]
          simp [hkn, hko]
    have hcp : ∀ k : ℕ,
        ((st.assignments.set i (some new_idx)).countP
            (fun a => decide (a = some k)) : ℤ)
          = (st.assignments.countP (fun a => decide (a = some k)) : ℤ)
            - (if old = k then 1 else 0) + (if new_idx = k then 1 else 0) := by
      intro k
      have h4 := countP_set_int st.assignments (fun a => decide (a = some k)) i
        (some new_idx) none hia
      rw [hold] at h4
      simpa only [decide_eq_true_eq, Option.some.injEq] using h4
    have hsum1 : (decrCount st.counts old).sum = st.counts.sum - 1 := by
      rw [decrCount, sum_set_int _ _ _ hoc]
      ring
    have hsum2 : (incrCount (decrCount st.counts old) new_idx).sum
        = (decrCount st.counts old).sum + 1 := by
      rw [incrCount, sum_set_int _ _ _ (by rw [hdlen]; exact hnc)]
      ring
    rw [hgoal]
    refine ⟨⟨?_, ?_, ?_, ?_, ?_⟩, ?_, ?_⟩
    · show (st.assignments.set i (some new_idx)).length = n_events
      rw [List.length_set]
      exact hlen_a
    · show (incrCount (decrCount st.counts old) new_idx).length = n_models
      rw [incrCount, List.length_set, hdlen]
      exact hlen_c
    · intro k hk
      show (incrCount (decrCount st.counts old) new_idx).getD k 0
          = ((st.assignments.set i (some new_idx)).countP
              (fun a => decide (a = some k)) : ℤ)
      rw [hgetc2 k hk, htally k hk, hcp k]
      split_ifs <;> omega
    · intro a ha k hak
      rcases List.mem_or_eq_of_mem_set ha with hmem | heq
      · exact hvalid a hmem k hak
      · rw [heq] at hak
        injection hak with h5
        subst h5
        exact hnew
    · show (incrCount (decrCount st.counts old) new_idx).sum
        = ((st.assignments.set i (some new_idx)).countP (fun a => a.isSome) : ℤ)
      have h4 := countP_set_int st.assignments (fun a => a.isSome) i
        (some new_idx) none hia
      rw [hold] at h4
      simp only [Option.isSome_some, ite_true, if_true] at h4
      rw [hsum2, hsum1, h4, hsum]
    · show (incrCount (decrCount st.counts old) new_idx).sum = (n_events : ℤ)
      rw [hsum2, hsum1, hsumN]
      ring
    · intro j hj
      by_cases hji : j = i
      · subst hji
        exact ⟨new_idx, hnew, getD_set_self _ _ _ _ hia⟩
      · obtain ⟨k, hk, hk2⟩ := hassigned j hj
        refine ⟨k, hk, ?_⟩
        rw [getD_set_ne _ _ _ _ _ (fun hcon => hji hcon.symm)]
        exact hk2

/-- Witness for C2 at a concrete instantiation: two events, two models,
initialisation visiting event 1 then event 0. -/
theorem C2_tally_invariant_witness :
    gibbs_wf (initialise_assignments 2 2 [(1, 0), (0, 1)]) 2 2
    ∧ ∀ st i new_idx, gibbs_wf st 2 2 → i < 2 → new_idx < 2 →
        gibbs_wf (update_component st i new_idx) 2 2 :=
  C2_tally_invariant 2 2 [(1, 0), (0, 1)] (by decide) (by decide)

/-- Factoring the shift `exp (ai - M)` out of the weighted sum. -/
theorem zip_exp_shift_sum (b a : List ℝ) (M : ℝ) :
    (List.zipWith (fun bi ai => bi * Real.exp (ai - M)) b a).sum
      = Real.exp (-M) * (List.zipWith (fun ai bi => bi * Real.exp ai) a b).sum := by
  induction b generalizing a with
  | nil => simp
  | cons y ys ih =>
      cases a with
      | nil => simp
      | cons x xs =>
          simp only [List.zipWith_cons_cons, List.sum_cons, ih xs]
          rw [Real.exp_sub, Real.exp_neg]
          ring

/-- Non-negative weights give a non-negative weighted sum of exponentials. -/
theorem zip_exp_sum_nonneg (a b : List ℝ) (hb : ∀ x ∈ b, 0 ≤ x) :
    0 ≤ (List.zipWith (fun ai bi => bi * Real.exp ai) a b).sum := by
  induction a generalizing b with
  | nil => simp
  | cons x xs ih =>
      cases b with
      | nil => simp
      | cons y ys =>
          simp only [List.zipWith_cons_cons, List.sum_cons]
          have h1 : 0 ≤ y := hb y (List.mem_cons_self y ys)
          have h2 := ih ys (fun z hz => hb z (List.mem_cons_of_mem y hz))
          have h3 : 0 ≤ y * Real.exp x := mul_nonneg h1 (Real.exp_pos x).le
          linarith

/-- A single positive weight makes the weighted sum of exponentials positive. -/
theorem zip_exp_sum_pos (a b : List ℝ) (hlen : a.length = b.length)
    (hb : ∀ x ∈ b, 0 ≤ x) (hpos : ∃ x ∈ b, 0 < x) :
    0 < (List.zipWith (fun ai bi => bi * Real.exp ai) a b).sum := by
  induction a generalizing b with
  | nil =>
      obtain ⟨z, hz, _⟩ := hpos
      rw [List.length_nil] at hlen
      rw [List.eq_nil_of_length_eq_zero hlen.symm] at hz
      simp at hz
  | cons x xs ih =>
      cases b with
      | nil => simp at hlen
      | cons y ys =>
          simp only [List.zipWith_cons_cons, List.sum_cons]
          have hys : ∀ z ∈ ys, 0 ≤ z := fun z hz => hb z (List.mem_cons_of_mem y hz)
          have hnn := zip_exp_sum_nonneg xs ys hys
          obtain ⟨z, hz, hzpos⟩ := hpos
          rcases List.mem_cons.mp hz with rfl | hz2
          · have h3 : 0 < z * Real.exp x := mul_pos hzpos (Real.exp_pos x)
            linarith
          · have hlen2 : xs.length = ys.length := by
              simpa using hlen
            have h4 := ih ys hlen2 hys ⟨z, hz2, hzpos⟩
            have h5 : 0 ≤ y * Real.exp x :=
              mul_nonneg (hb y (List.mem_cons_self y ys)) (Real.exp_pos x).le
            linarith

/-- All-ones weights collapse the weighted combination to a plain map. -/
theorem zip_one_exp_shift (a : List ℝ) (M : ℝ) :
    List.zipWith (fun bi ai => bi * Real.exp (ai - M)) (List.replicate a.length 1) a
      = a.map (fun ai => Real.exp (ai - M)) := by
  induction a with
  | nil => simp
  | cons x xs ih => simp [List.replicate_succ, ih]

/-- Factoring the shift out of a plain sum of exponentials. -/
theorem sum_map_exp_shift (a : List ℝ) (M : ℝ) :
    (a.map (fun ai => Real.exp (ai - M))).sum = Real.exp (-M) * (a.map Real.exp).sum := by
  induction a with
  | nil => simp
  | cons x xs ih =>
      simp only [List.map_cons, List.sum_cons, ih]
      rw [Real.exp_sub, Real.exp_neg]
      ring

/-- A non-empty sum of exponentials is positive. -/
theorem sum_map_exp_pos (a : List ℝ) (ha : a ≠ []) : 0 < (a.map Real.exp).sum := by
  cases a with
  | nil => exact absurd rfl ha
  | cons x xs =>
      simp only [List.map_cons, List.sum_cons]
      have h1 : 0 ≤ (xs.map Real.exp).sum := by
        apply List.sum_nonneg
        intro z hz
        obtain ⟨y, _, rfl⟩ := List.mem_map.mp hz
        exact (Real.exp_pos y).le
      linarith [Real.exp_pos x]

/-- Claim C3: for non-empty equal-length sequences `a` and `b` with `b`
non-negative (and, so that the real-number statement is meaningful, not all
zero: with every weight zero both sides of the contract are the IEEE value
-inf, which has no counterpart in `ℝ`), `_logsumexp_jit` returns
`log (Σ_i b_i * exp a_i)`; and with all-ones weights it coincides with
ordinary `logsumexp`.  The function is pure, so input mutation does not
arise in the embedding. -/
theorem C3_logsumexp_jit_value (a b : List ℝ) (ha : a ≠ [])
    (hlen : a.length = b.length) (hb : ∀ x ∈ b, 0 ≤ x) (hpos : ∃ x ∈ b, 0 < x) :
    logsumexp_jit a b
      = Real.log ((List.zipWith (fun ai bi => bi * Real.exp ai) a b).sum)
    ∧ logsumexp_jit a (List.replicate a.length 1) = logsumexp a := by
  constructor
  · have hS := zip_exp_sum_pos a b hlen hb hpos
    simp only [logsumexp_jit]
    rw [zip_exp_shift_sum b a (listMax a),
      Real.log_mul (Real.exp_ne_zero _) (ne_of_gt hS), Real.log_exp]
    ring
  · have hS := sum_map_exp_pos a ha
    simp only [logsumexp_jit, logsumexp]
    rw [zip_one_exp_shift a (listMax a), sum_map_exp_shift a (listMax a),
      Real.log_mul (Real.exp_ne_zero _) (ne_of_gt hS), Real.log_exp]
    ring

/-- Witness for C3 at `a = [0]`, `b = [2]`. -/
theorem C3_logsumexp_jit_value_witness :
    logsumexp_jit [0] [2]
      = Real.log ((List.zipWith (fun ai bi => bi * Real.exp ai)
          [(0 : ℝ)] [(2 : ℝ)]).sum)
    ∧ logsumexp_jit [0] (List.replicate ([(0 : ℝ)].length) 1) = logsumexp [0] :=
  C3_logsumexp_jit_value [0] [2] (by simp) rfl
    (by
      intro x hx
      rw [List.mem_singleton] at hx
      rw [hx]
      norm_num)
    ⟨2, by simp, by norm_num⟩

/-- Claim C1 (refuted; the code is defective): `_draw_assignment` does not
produce probabilities summing to one.  At the concrete state
`counts = [2, 2]`, `alpha = 1/2`, `alpha0 = 1`, `EventProbabilityMatrix =
[[0, 0], [0, 0]]`, `i = 0`, the row of `logP` belonging to event 0 satisfies
`Σ_k exp(logP[0][k]) = 5 / (2 log (5/2)) ≈ 2.73 ≠ 1`: the source adds
`logP_DD` to the whole matrix rather than row `i`, and passes the log-scale
prior array as the linear weight operand of `_logsumexp_jit`. -/
theorem C1_exp_logP_row_sum_ne_one :
    (((draw_assignment_logP [2, 2] (1 / 2) 1 [[0, 0], [0, 0]] 0).getD 0 []).map
        Real.exp).sum ≠ 1 := by
  have h52 : (0 : ℝ) < 5 / 2 := by norm_num
  have hL : 0 < Real.log (5 / 2) := Real.log_pos (by norm_num)
  have hLle : Real.log (5 / 2) ≤ 5 / 2 - 1 := Real.log_le_sub_one_of_pos h52
  have h2L : (0 : ℝ) < 2 * Real.log (5 / 2) := by linarith
  have hlpdd : logP_DD [2, 2] (1 / 2) 1 0 = [Real.log (5 / 2), Real.log (5 / 2)] := by
    simp only [logP_DD, List.map_cons, List.map_nil]
    norm_num
  have hmax : listMax [(0 : ℝ), 0] = 0 := by
    simp [listMax]
  have hz : logsumexp_jit [0, 0] [Real.log (5 / 2), Real.log (5 / 2)]
      = Real.log (2 * Real.log (5 / 2)) := by
    simp only [logsumexp_jit, hmax, List.zipWith_cons_cons, List.zipWith_nil_left,
      List.sum_cons, List.sum_nil]
    rw [show (0 : ℝ) - 0 = 0 by ring, Real.exp_zero]
    rw [show Real.log (5 / 2) * 1 + (Real.log (5 / 2) * 1 + 0)
      = 2 * Real.log (5 / 2) by ring]
    ring
  have key : (((draw_assignment_logP [2, 2] (1 / 2) 1 [[0, 0], [0, 0]] 0).getD 0 []).map
        Real.exp).sum
      = 2 * ((5 / 2) / (2 * Real.log (5 / 2))) := by
    simp only [draw_assignment_logP, hlpdd, List.getD_cons_zero, hz,
      List.map_cons, List.map_nil, List.zipWith_cons_cons, List.zipWith_nil_left,
      List.sum_cons, List.sum_nil]
    rw [show Real.log (5 / 2) + 0 - Real.log (2 * Real.log (5 / 2))
      = Real.log (5 / 2) - Real.log (2 * Real.log (5 / 2)) by ring]
    rw [Real.exp_sub, Real.exp_log h52, Real.exp_log h2L]
    ring
  rw [key]
  intro hcon
  have hne : 2 * Real.log (5 / 2) ≠ 0 := ne_of_gt h2L
  field_simp at hcon
  linarith

/-- Claim C4: on a non-empty sample list, single-model mode returns the log of
the arithmetic mean of the densities, and collection mode (non-empty model
list) returns the log of the mean over models of the per-model means.
(The executable claim holds of the body of `MC_integral`; the module itself
fails to parse, see the notes on `MC_integral` and the verification record.) -/
theorem C4_MC_integral_modes (m : ℝ → ℝ) (ps : List (ℝ → ℝ)) (s : List ℝ)
    (hs : s ≠ []) (hp : ps ≠ []) :
    MC_integral (Target.single m) s = Real.log (listMean (s.map m))
    ∧ MC_integral (Target.collection ps) s
        = Real.log (listMean (ps.map (fun p => listMean (s.map p)))) := by
  constructor
  · simp [MC_integral, MC_probabilities, listMean]
  · simp only [MC_integral, MC_probabilities, List.map_map]
    rfl

/-- Witness for C4 with the constant unit density and a single sample. -/
theorem C4_MC_integral_modes_witness :
    MC_integral (Target.single (fun _ => 1)) [0]
        = Real.log (listMean (List.map (fun _ => (1 : ℝ)) [(0 : ℝ)]))
    ∧ MC_integral (Target.collection [fun _ => 1]) [0]
        = Real.log (listMean (List.map (fun p => listMean (List.map p [(0 : ℝ)]))
            [fun _ => (1 : ℝ)])) :=
  C4_MC_integral_modes (fun _ => 1) [fun _ => 1] [0] (by simp) (by simp)

/-- Claim C9: applying the estimator to the one-element collection `[m]` gives
the same value as applying it to `m` in single mode; the two branches build
the identical one-row probability matrix. -/
theorem C9_singleton_collection_agreement (m : ℝ → ℝ) (s : List ℝ) :
    MC_integral (Target.collection [m]) s = MC_integral (Target.single m) s := rfl

/-- Claim C5 (refuted): the matrix entry computed by
`_evaluate_event_probabilities` is a single-model estimate, not the value of
one multi-model estimator call for its event.  With models of constant
densities `1` and `1/2` and one event `[0]`, entry `(0, 0)` is `log 1 = 0`
while the one multi-model call returns `log (3/4) < 0`. -/
theorem C5_row_is_not_one_multi_call :
    ((evaluate_event_probabilities [fun _ => 1, fun _ => (1 : ℝ) / 2]
        [[0]]).getD 0 []).getD 0 0
      ≠ MC_integral (Target.collection [fun _ => 1, fun _ => (1 : ℝ) / 2]) [0] := by
  have h1 : ((evaluate_event_probabilities [fun _ => 1, fun _ => (1 : ℝ) / 2]
      [[0]]).getD 0 []).getD 0 0 = 0 := by
    simp [evaluate_event_probabilities, MC_integral, MC_probabilities, listMean]
  have h2 : MC_integral (Target.collection [fun _ => 1, fun _ => (1 : ℝ) / 2]) [0]
      = Real.log (3 / 4) := by
    simp [MC_integral, MC_probabilities, listMean]
    norm_num
  rw [h1, h2]
  have hneg : Real.log (3 / 4) < 0 := Real.log_neg (by norm_num) (by norm_num)
  exact fun hcon => absurd hcon.symm (ne_of_lt hneg)

/-- Claim C5 as amended: `EventProbabilityMatrix[i][k]` equals the value of a
single-model estimator call on model `k` and the samples of event `i` — one
call per (event, model) pair, in single-model mode. -/
theorem C5_per_pair_single_calls (models : List (ℝ → ℝ)) (events : List (List ℝ))
    (i k : ℕ) (hi : i < events.length) (hk : k < models.length) :
    ((evaluate_event_probabilities models events).getD i []).getD k 0
      = MC_integral (Target.single (models.getD k (fun _ => 0)))
          (events.getD i []) := by
  have hi2 : i < (evaluate_event_probabilities models events).length := by
    simpa [evaluate_event_probabilities] using hi
  rw [getD_pos _ _ _ hi2]
  simp only [evaluate_event_probabilities, List.get_eq_getElem, List.getElem_map]
  have hk2 : k < (models.map (fun model =>
      MC_integral (Target.single model) (events.get ⟨i, hi⟩))).length := by
    simpa using hk
  rw [getD_pos models k (fun _ => 0) hk, getD_pos events i [] hi]
  simp [List.get_eq_getElem, List.getElem_map, List.getElem?_eq_getElem hk]

/-- Witness for C5 (amended form) at one model and one event. -/
theorem C5_per_pair_single_calls_witness :
    ((evaluate_event_probabilities [fun _ => (1 : ℝ)] [[0]]).getD 0 []).getD 0 0
      = MC_integral (Target.single (([fun _ => (1 : ℝ)]).getD 0 (fun _ => 0)))
          (([[(0 : ℝ)]]).getD 0 []) :=
  C5_per_pair_single_calls [fun _ => 1] [[0]] 0 0 (by simp) (by simp)

/-- Claim C6 (the supporting mathematical part): the Dirichlet parameter
vector written on sampler.py line 107, read with the evident binding of
`counts` to `self.counts`, has all entries strictly positive whenever
`alpha > 0`, `alpha0 > 0` and the counts are non-negative.  The line as
written references an unbound name and raises `NameError`, so the call never
reaches the Dirichlet sampler (see the verification record). -/
theorem C6_mixing_fraction_params_positive (counts : List ℝ) (alpha alpha0 : ℝ)
    (n_events : ℕ) (hc : ∀ c ∈ counts, 0 ≤ c) (ha : 0 < alpha) (ha0 : 0 < alpha0) :
    ∀ x ∈ draw_mixing_fractions_param counts alpha alpha0 n_events, 0 < x := by
  intro x hx
  obtain ⟨c, hc2, rfl⟩ := List.mem_map.mp hx
  have h1 : 0 < c + alpha := by linarith [hc c hc2]
  have h2 : 0 < (n_events : ℝ) + alpha0 := by
    have h3 : (0 : ℝ) ≤ (n_events : ℝ) := Nat.cast_nonneg n_events
    linarith
  exact div_pos h1 h2

/-- Witness for C6 with one zero count, `alpha = 1/2`, `alpha0 = 1`: the
single parameter entry `(0 + 1/2) / (1 + 1)` is positive. -/
theorem C6_mixing_fraction_params_positive_witness :
    0 < ((0 : ℝ) + 1 / 2) / (((1 : ℕ) : ℝ) + 1) :=
  C6_mixing_fraction_params_positive [0] (1 / 2) 1 1 (by simp)
    (by norm_num) (by norm_num)
    (((0 : ℝ) + 1 / 2) / (((1 : ℕ) : ℝ) + 1))
    (by simp [draw_mixing_fractions_param])

/-- Claim C7 (refuted): a model assigning zero density to every sample does
not surface any error; the estimator returns `Except.ok` carrying `log 0`
(IEEE -inf) at the concrete zero-density model on one sample. -/
theorem C7_zero_density_not_an_error :
    MC_integral_checked (Target.single (fun _ => 0)) [0] = Except.ok (Real.log 0) := by
  simp [MC_integral_checked, MC_integral, MC_probabilities, listMean]

/-- Claim C7 as amended: whenever a model assigns zero density to every
sample, the estimator silently returns `log 0` (IEEE -inf) inside a
successful `Except.ok`, which then propagates into the assignment
computation; no `NumericalError` is raised (none exists in the code). -/
theorem C7_zero_density_returns_log_zero (model : ℝ → ℝ) (samples : List ℝ)
    (hs : samples ≠ []) (h0 : ∀ x ∈ samples, model x = 0) :
    MC_integral_checked (Target.single model) samples = Except.ok (Real.log 0) := by
  have hzero : (samples.map model).sum = 0 := by
    apply List.sum_eq_zero
    intro z hz
    obtain ⟨y, hy, rfl⟩ := List.mem_map.mp hz
    exact h0 y hy
  have hm1 : listMean (samples.map model) = 0 := by
    rw [listMean, hzero]
    simp
  simp only [MC_integral_checked, MC_integral, MC_probabilities, List.map_cons,
    List.map_nil, hm1]
  rw [show listMean [(0 : ℝ)] = 0 by rw [listMean]; simp]

/-- Witness for C7 (amended form) at the zero model on one sample. -/
theorem C7_zero_density_returns_log_zero_witness :
    MC_integral_checked (Target.single (fun _ => (0 : ℝ))) [1] = Except.ok (Real.log 0) :=
  C7_zero_density_returns_log_zero (fun _ => 0) [1] (by simp) (by simp)

/-- Claim C8 (refuted) as amended: construction never fails.  No length or
hyperparameter check exists in `Gibbs.__init__`; the stored configuration is
exactly the inputs, with `alpha = alpha0 / n_models` and `thinning`
truncated by `int()` (hence not necessarily positive). -/
theorem C8_init_never_fails (nps nm nen nmn : ℕ) (alpha0 : ℝ) (thinning : ℚ) :
    Gibbs_init nps nm nen nmn alpha0 thinning
      = Except.ok ⟨nps, nm, alpha0, alpha0 / (nm : ℝ), pyInt thinning⟩ := rfl

/-- Claim C8 counterexample: with one event but two event names, three model
names for one model, `alpha0 = -1` (not positive) and `thinning = 0`,
construction still succeeds, and the coerced thinning is `0`, not positive. -/
theorem C8_mismatch_accepted :
    (2 : ℕ) ≠ 1 ∧ (3 : ℕ) ≠ 1 ∧ ¬ (0 : ℝ) < -1 ∧ pyInt 0 = 0 ∧ ¬ (0 : ℤ) < 0
    ∧ (Gibbs_init 1 1 2 3 (-1) 0).isOk = true := by
  refine ⟨by decide, by decide, by norm_num, ?_, by decide, rfl⟩
  simp [pyInt]

/-- Length of the accumulator grows by one per iteration of the `rvs` loop. -/
theorem rvs_foldl_length (oracle : ℕ → List (ℕ × ℕ) × List ℝ) :
    ∀ (l : List ℕ) (acc : List (List ℝ) × GibbsState),
      ((l.foldl (rvs_step oracle) acc).1).length = acc.1.length + l.length := by
  intro l
  induction l with
  | nil =>
      intro acc
      simp
  | cons j js ih =>
      intro acc
      rw [List.foldl_cons, ih]
      simp [rvs_step]
      omega

/-- Claim C10: `rvs` performs `int(n_draws)` (truncated, clamped at zero by
`range`) draw iterations; with `n_draws = 0` it runs no update at all and
returns the empty array with the sampler state untouched.
(The claim holds of the body; the `def` line itself is missing its colon,
see the verification record.) -/
theorem C10_rvs_zero_draws (st : GibbsState) (oracle : ℕ → List (ℕ × ℕ) × List ℝ) :
    rvs st oracle 0 = ([], st)
    ∧ ∀ q : ℚ, ((rvs st oracle q).1).length = (pyInt q).toNat := by
  constructor
  · have h0 : pyInt 0 = 0 := by simp [pyInt]
    rw [rvs, h0]
    simp
  · intro q
    rw [rvs, rvs_foldl_length oracle]
    simp

end MixingFractions
